import Mathlib

/-!
Shallow embedding of the ISAAC random-number engine (`src/isaac.h`,
namespace `utils`): the CRTP scaffold `_isaac<Derived, Alpha, T>` together
with the two word-width variants `isaac<Alpha>` (32-bit words) and
`isaac64<Alpha>` (64-bit words).  Machine words are modelled as `Nat`
with explicit reduction `% 2^w` after every arithmetic operation, exactly
as the C++ unsigned types wrap.  The engine state is the record of the
data members `result_`, `memory_`, `a_`, `b_`, `c_`, `count_`.
-/

namespace IsaacEng

/-- Wrapping addition of machine words modulo `W` (C++ unsigned `+`). -/
def madd (W x y : Nat) : Nat := (x + y) % W

/-- Bitwise xor of machine words, reduced modulo `W` (C++ unsigned `^`;
the reduction is the identity when both arguments are in range and `W`
is a power of two, reflecting the word type of the result). -/
def mxor (W x y : Nat) : Nat := (x ^^^ y) % W

/-- Left shift of a machine word, wrapping modulo `W` (C++ unsigned `<<`). -/
def mshl (W x k : Nat) : Nat := (x <<< k) % W

/-- Wrapping subtraction of machine words modulo `W` (C++ unsigned `-`). -/
def msub (W x y : Nat) : Nat := (x % W + W - y % W) % W

/-- Bitwise complement of a machine word of modulus `W = 2^w`
(C++ unsigned `~`). -/
def mnot (W x : Nat) : Nat := (W - 1) - x % W

/-- The eight working registers `a..h` used by `_isaac::init` and the
variants' `_mix` scrambling networks. -/
structure Regs where
  a : Nat
  b : Nat
  c : Nat
  d : Nat
  e : Nat
  f : Nat
  g : Nat
  h : Nat
deriving DecidableEq, Repr

/-- The data members of `_isaac`: output buffer `result_`, memory array
`memory_`, accumulators `a_`, `b_`, `c_` and the cursor `count_`. -/
structure EngState where
  result : List Nat
  memory : List Nat
  a : Nat
  b : Nat
  c : Nat
  count : Nat
deriving DecidableEq, Repr

/-- The operations a word-width variant supplies to the scaffold
(CRTP methods `_golden`, `_mix`, and the per-substep accumulator update
of `rngstep` inside `_do_isaac`), plus the word modulus `W = 2^w` and the
byte-scale shift used by `ind`. -/
structure Variant where
  W : Nat
  ishift : Nat
  golden : Nat
  mix : Regs → Regs
  amix : Nat → Nat → Nat

/-- Word modulus of the 32-bit variant. -/
def W32 : Nat := 2 ^ 32

/-- Word modulus of the 64-bit variant. -/
def W64 : Nat := 2 ^ 64

/-- The scrambling network `isaac::_mix` (32-bit), transcribed line by
line; every assignment wraps modulo `2^32`. -/
def mix32 (r : Regs) : Regs :=
  let a := r.a; let b := r.b; let c := r.c; let d := r.d
  let e := r.e; let f := r.f; let g := r.g; let h := r.h
  let a := mxor W32 a (mshl W32 b 11); let d := madd W32 d a; let b := madd W32 b c
  let b := mxor W32 b (c >>> 2);       let e := madd W32 e b; let c := madd W32 c d
  let c := mxor W32 c (mshl W32 d 8);  let f := madd W32 f c; let d := madd W32 d e
  let d := mxor W32 d (e >>> 16);      let g := madd W32 g d; let e := madd W32 e f
  let e := mxor W32 e (mshl W32 f 10); let h := madd W32 h e; let f := madd W32 f g
  let f := mxor W32 f (g >>> 4);       let a := madd W32 a f; let g := madd W32 g h
  let g := mxor W32 g (mshl W32 h 8);  let b := madd W32 b g; let h := madd W32 h a
  let h := mxor W32 h (a >>> 9);       let c := madd W32 c h; let a := madd W32 a b
  ⟨a, b, c, d, e, f, g, h⟩

/-- The scrambling network `isaac64::_mix` (64-bit), transcribed line by
line; every assignment wraps modulo `2^64`. -/
def mix64 (r : Regs) : Regs :=
  let a := r.a; let b := r.b; let c := r.c; let d := r.d
  let e := r.e; let f := r.f; let g := r.g; let h := r.h
  let a := msub W64 a e; let f := mxor W64 f (h >>> 9);       let h := madd W64 h a
  let b := msub W64 b f; let g := mxor W64 g (mshl W64 a 9);  let a := madd W64 a b
  let c := msub W64 c g; let h := mxor W64 h (b >>> 23);      let b := madd W64 b c
  let d := msub W64 d h; let a := mxor W64 a (mshl W64 c 15); let c := madd W64 c d
  let e := msub W64 e a; let b := mxor W64 b (d >>> 14);      let d := madd W64 d e
  let f := msub W64 f b; let c := mxor W64 c (mshl W64 e 20); let e := madd W64 e f
  let g := msub W64 g c; let d := mxor W64 d (f >>> 17);      let f := madd W64 f g
  let h := msub W64 h d; let e := mxor W64 e (mshl W64 g 14); let g := madd W64 g h
  ⟨a, b, c, d, e, f, g, h⟩

/-- The accumulator updates of the four substeps of `isaac::_do_isaac`
(`a = (a ^ mix) + ...` with mixes `a<<13`, `a>>6`, `a<<2`, `a>>16`),
indexed by the substep number modulo 4. -/
def amix32 (i a : Nat) : Nat :=
  match i with
  | 0 => mxor W32 a (mshl W32 a 13)
  | 1 => mxor W32 a (a >>> 6)
  | 2 => mxor W32 a (mshl W32 a 2)
  | _ => mxor W32 a (a >>> 16)

/-- The accumulator updates of the four substeps of `isaac64::_do_isaac`
(`a = mix + ...` with mixes `~(a^(a<<21))`, `a^(a>>5)`, `a^(a<<12)`,
`a^(a>>33)`), indexed by the substep number modulo 4. -/
def amix64 (i a : Nat) : Nat :=
  match i with
  | 0 => mnot W64 (mxor W64 a (mshl W64 a 21))
  | 1 => mxor W64 a (a >>> 5)
  | 2 => mxor W64 a (mshl W64 a 12)
  | _ => mxor W64 a (a >>> 33)

/-- The 32-bit variant `utils::isaac`: golden-ratio constant
`0x9e3779b9`, byte scale 4 (`ind` masks with `(state_size-1) << 2`). -/
def V32 : Variant := ⟨W32, 2, 0x9e3779b9, mix32, amix32⟩

/-- The 64-bit variant `utils::isaac64`: golden-ratio constant
`0x9e3779b97f4a7c13`, byte scale 8 (`ind` masks with
`(state_size-1) << 3`). -/
def V64 : Variant := ⟨W64, 3, 0x9e3779b97f4a7c13, mix64, amix64⟩

/-- The indirect load `ind(mm, x)`: reads the memory array at the word
index selected by the byte offset `x & ((state_size-1) << ishift)`. -/
def ind (V : Variant) (ss : Nat) (mm : List Nat) (x : Nat) : Nat :=
  mm.getD ((x &&& ((ss - 1) <<< V.ishift)) >>> V.ishift) 0

/-- Working state threaded through one generation pass of `_do_isaac`:
the memory array, the output buffer being rewritten, and the roaming
accumulators `a`, `b`. -/
structure GenSt where
  mem : List Nat
  res : List Nat
  a : Nat
  b : Nat
deriving DecidableEq, Repr

/-- One `rngstep` of `_do_isaac` at position `i` (0-based over the whole
memory array; the companion pointer `m2` is `state_size/2` positions
ahead, cyclically):
`x = *m; a = amix(a) + *(m2++); *(m++) = y = ind(mm,x) + a + b;`
`*(r++) = b = ind(mm, y >> Alpha) + x;`. -/
def rngstepG (V : Variant) (alpha ss : Nat) (st : GenSt) (i : Nat) : GenSt :=
  let x := st.mem.getD i 0
  let a := madd V.W (V.amix (i % 4) st.a) (st.mem.getD ((i + ss / 2) % ss) 0)
  let y := madd V.W (madd V.W (ind V ss st.mem x) a) st.b
  let mem := st.mem.set i y
  let b := madd V.W (ind V ss mem (y >>> alpha)) x
  ⟨mem, st.res.set i b, a, b⟩

/-- The bulk generation step `_do_isaac`: advances `c` by a wrapping
increment, seeds the roaming `b` with `b + c`, then performs one
`rngstep` per memory position (the two C++ loops walk the first and
second halves with `m2` offset by `state_size/2`, which is position
`(i + state_size/2) % state_size`), finally writing back `a` and `b`. -/
def doIsaacG (V : Variant) (alpha : Nat) (s : EngState) : EngState :=
  let ss := 2 ^ alpha
  let c := madd V.W s.c 1
  let b := madd V.W s.b c
  let g := (List.range ss).foldl (rngstepG V alpha ss) ⟨s.memory, s.result, s.a, b⟩
  ⟨g.res, g.mem, g.a, g.b, c, s.count⟩

/-- The draw operation `_isaac::operator()()`:
`return (!count_--) ? (do_isaac(), count_ = state_size - 1,
result_[count_]) : result_[count_];`. -/
def nextE (V : Variant) (alpha : Nat) (s : EngState) : Nat × EngState :=
  let ss := 2 ^ alpha
  if s.count = 0 then
    let s1 := doIsaacG V alpha s
    (s1.result.getD (ss - 1) 0, { s1 with count := ss - 1 })
  else
    (s.result.getD (s.count - 1) 0, { s with count := s.count - 1 })

/-- The skip operation `_isaac::discard(z)`:
`for (; z; --z) operator()();`. -/
def discardE (V : Variant) (alpha : Nat) : Nat → EngState → EngState
  | 0, s => s
  | Nat.succ z, s => discardE V alpha z (nextE V alpha s).2

/-- Modelled from the spec (§4.1 discard equivalence): "calling `next()`
exactly `n` times, discarding results" — the n-fold iteration of the
state component of `nextE`. -/
def nextNE (V : Variant) (alpha n : Nat) (s : EngState) : EngState :=
  Nat.iterate (fun t => (nextE V alpha t).2) n s

/-- Writes the eight mixed registers into the memory-array chunk
starting at index `i` (the eight `memory_[i+j] = ...` stores of
`_isaac::init`). -/
def write8 (m : List Nat) (i : Nat) (r : Regs) : List Nat :=
  ((((((((m.set i r.a).set (i+1) r.b).set (i+2) r.c).set (i+3) r.d).set
        (i+4) r.e).set (i+5) r.f).set (i+6) r.g).set (i+7) r.h)

/-- One chunk of an `init` pass: add the eight source words at
`i..i+7` into the registers, scramble with the variant's mix network,
and write the registers back into the memory chunk.  `src` is
`result_` in the first pass and the current memory array in the
second. -/
def initChunk (V : Variant) (src : List Nat) (st : Regs × List Nat) (i : Nat) :
    Regs × List Nat :=
  let r0 := st.1
  let r1 : Regs :=
    ⟨madd V.W r0.a (src.getD i 0), madd V.W r0.b (src.getD (i+1) 0),
     madd V.W r0.c (src.getD (i+2) 0), madd V.W r0.d (src.getD (i+3) 0),
     madd V.W r0.e (src.getD (i+4) 0), madd V.W r0.f (src.getD (i+5) 0),
     madd V.W r0.g (src.getD (i+6) 0), madd V.W r0.h (src.getD (i+7) 0)⟩
  let r2 := V.mix r1
  (r2, write8 st.2 i r2)

/-- One full pass of `_isaac::init` over the memory array in chunks of
eight (`for (i = 0; i < state_size; i += 8)`).  When `useMem` is true
the chunk sources are read from the memory array being written (second
pass); otherwise from the output buffer `result_` (first pass). -/
def initPassN (V : Variant) (useMem : Bool) (res : List Nat) (n : Nat)
    (start : Regs × List Nat) : Regs × List Nat :=
  (List.range n).foldl
    (fun st k => initChunk V (if useMem then st.2 else res) st (8 * k)) start

/-- The state-initialization routine `_isaac::init`: golden-ratio
warm-up of the eight registers (four parameterless mixes), reset of
`a_ = b_ = c_ = 0`, two passes over the memory array, one generation
pass, and `count_ = state_size`. -/
def initE (V : Variant) (alpha : Nat) (s : EngState) : EngState :=
  let ss := 2 ^ alpha
  let gld := V.golden
  let r0 : Regs := ⟨gld, gld, gld, gld, gld, gld, gld, gld⟩
  let r1 := V.mix (V.mix (V.mix (V.mix r0)))
  let p1 := initPassN V false s.result (ss / 8) (r1, s.memory)
  let p2 := initPassN V true s.result (ss / 8) p1
  let s1 : EngState := ⟨s.result, p2.2, 0, 0, 0, s.count⟩
  let s2 := doIsaacG V alpha s1
  { s2 with count := ss }

/-- The default seed `_isaac::default_seed` (the word-width zero). -/
def defaultSeedE : Nat := 0

/-- The single-word seeding `_isaac::seed(result_type s)`: fill the
entire output buffer with `s`, then run `init()`. -/
def seedE (V : Variant) (alpha : Nat) (s : Nat) (st : EngState) : EngState :=
  initE V alpha { st with result := List.replicate (2 ^ alpha) s }

/-- The cyclic buffer fill of `_isaac::seed(Iter begin, Iter end)`:
`it` starts at `begin`; at each step, if `it == end` it is rewound to
`begin`; the current element is stored (converted to the word type,
hence reduced modulo `W`) and `it` advances.  `p` is the current
offset of `it` from `begin`. -/
def fillCyc (W : Nat) (xs : List Nat) : Nat → Nat → List Nat
  | 0, _ => []
  | Nat.succ n, p =>
    let q := if p = xs.length then 0 else p
    (xs.getD q 0 % W) :: fillCyc W xs n (q + 1)

/-- The iterator-range seeding `_isaac::seed(Iter begin, Iter end)`:
fill the output buffer cyclically from the range, then run `init()`. -/
def seedIterE (V : Variant) (alpha : Nat) (xs : List Nat) (st : EngState) :
    EngState :=
  initE V alpha { st with result := fillCyc V.W xs (2 ^ alpha) 0 }

/-- The seed-sequence seeding `_isaac::seed(Sseq q)`: exactly
`state_size` generated words are copied into the output buffer, then
`init()` runs.  The generated block is modelled as a list of words. -/
def seedArrE (V : Variant) (alpha : Nat) (xs : List Nat) (st : EngState) :
    EngState :=
  initE V alpha
    { st with result := (List.range (2 ^ alpha)).map (fun i => xs.getD i 0 % V.W) }

/-- An engine built by the seeding constructor `_isaac(result_type s)`;
the data members hold indeterminate (but well-typed) values before
`seed(s)` runs, here taken to be zero. -/
def mkEngineE (V : Variant) (alpha : Nat) (s : Nat) : EngState :=
  seedE V alpha s
    ⟨List.replicate (2 ^ alpha) 0, List.replicate (2 ^ alpha) 0, 0, 0, 0, 0⟩

/-- The copy constructor `_isaac(const _isaac&)`: copies every buffer
slot and the four scalars. -/
def copyE (s : EngState) : EngState :=
  ⟨s.result, s.memory, s.a, s.b, s.c, s.count⟩

/-- The equality comparison `operator==`: the four scalars must match
and every output-buffer and memory-array slot must match element-wise. -/
def beqE (ss : Nat) (x y : EngState) : Bool :=
  (x.a == y.a && x.b == y.b && x.c == y.c && x.count == y.count) &&
    (List.range ss).all
      (fun i => x.result.getD i 0 == y.result.getD i 0 &&
                x.memory.getD i 0 == y.memory.getD i 0)

/-- The serialized text of `operator<<`, at the granularity of
whitespace-separated fields: `count_`, the output buffer in index
order, the memory array in index order, then `a_`, `b_`, `c_`.  A
field is `some n` for the plain-decimal rendering of `n`; `none`
stands for a non-numeric token. -/
def serializeE (s : EngState) : List (Option Nat) :=
  some s.count ::
    (s.result.map some ++ (s.memory.map some ++ [some s.a, some s.b, some s.c]))

/-- The modulus of `std::size_t`, the type of `count_`. -/
def sizeTMod : Nat := 2 ^ 64

/-- One formatted extraction `is >> tmp` into an unsigned type of
modulus `bound`: fails (failbit) when the stream is exhausted, the next
token is non-numeric, or the value does not fit the target type. -/
def readNum (bound : Nat) : List (Option Nat) → Option (Nat × List (Option Nat))
  | [] => none
  | none :: _ => none
  | some n :: ts => if n < bound then some (n, ts) else none

/-- A loop of `k` formatted extractions with early exit on failure
(the `for` loops of `operator>>` over `tmp_result` / `tmp_memory`). -/
def readNums (bound : Nat) : Nat → List (Option Nat) →
    Option (List Nat × List (Option Nat))
  | 0, ts => some ([], ts)
  | Nat.succ k, ts =>
    match readNum bound ts with
    | none => none
    | some (v, ts1) =>
      match readNums bound k ts1 with
      | none => none
      | some (vs, ts2) => some (v :: vs, ts2)

/-- The stream extraction `operator>>`: reads `count`, the
`state_size` output-buffer words, the `state_size` memory words, then
`a`, `b`, `c` into scratch storage, committing to the engine only if
every read succeeded; the returned flag is the stream's fail state. -/
def deserializeE (V : Variant) (alpha : Nat) (ts : List (Option Nat))
    (x : EngState) : EngState × Bool :=
  let ss := 2 ^ alpha
  match readNum sizeTMod ts with
  | none => (x, true)
  | some (cnt, t1) =>
    match readNums V.W ss t1 with
    | none => (x, true)
    | some (res, t2) =>
      match readNums V.W ss t2 with
      | none => (x, true)
      | some (mem, t3) =>
        match readNum V.W t3 with
        | none => (x, true)
        | some (av, t4) =>
          match readNum V.W t4 with
          | none => (x, true)
          | some (bv, t5) =>
            match readNum V.W t5 with
            | none => (x, true)
            | some (cv, _) => (⟨res, mem, av, bv, cv, cnt⟩, false)

/-- Well-typedness of the data members: the two arrays have
`state_size` slots and every stored scalar is a machine word of the
variant's width (which the C++ types enforce by construction). -/
def TypedE (V : Variant) (alpha : Nat) (s : EngState) : Prop :=
  s.result.length = 2 ^ alpha ∧ s.memory.length = 2 ^ alpha ∧
  (∀ x ∈ s.result, x < V.W) ∧ (∀ x ∈ s.memory, x < V.W) ∧
  s.a < V.W ∧ s.b < V.W ∧ s.c < V.W

/-- Full well-formedness: well-typed members plus the cursor invariant
`count_ ≤ state_size`. -/
def WFE (V : Variant) (alpha : Nat) (s : EngState) : Prop :=
  TypedE V alpha s ∧ s.count ≤ 2 ^ alpha

/-- All eight registers are machine words. -/
def RegsLt (W : Nat) (r : Regs) : Prop :=
  r.a < W ∧ r.b < W ∧ r.c < W ∧ r.d < W ∧
  r.e < W ∧ r.f < W ∧ r.g < W ∧ r.h < W

/-- Structural facts about a variant that the two concrete variants
enjoy: a positive word modulus, an in-range golden constant, and a mix
network producing machine words. -/
def GoodV (V : Variant) : Prop :=
  0 < V.W ∧ V.golden < V.W ∧ ∀ r : Regs, RegsLt V.W (V.mix r)

/-- The states an engine of a given variant and `Alpha` can actually
be in: some seeding operation ran first (on well-typed prior member
values), followed by any number of draws and discards. -/
inductive ReachableE (V : Variant) (alpha : Nat) : EngState → Prop where
  | seed : ∀ (s : Nat) (st : EngState), s < V.W →
      st.memory.length = 2 ^ alpha → (∀ x ∈ st.memory, x < V.W) →
      ReachableE V alpha (seedE V alpha s st)
  | seedIter : ∀ (xs : List Nat) (st : EngState), xs ≠ [] →
      st.memory.length = 2 ^ alpha → (∀ x ∈ st.memory, x < V.W) →
      ReachableE V alpha (seedIterE V alpha xs st)
  | seedArr : ∀ (xs : List Nat) (st : EngState),
      st.memory.length = 2 ^ alpha → (∀ x ∈ st.memory, x < V.W) →
      ReachableE V alpha (seedArrE V alpha xs st)
  | next : ∀ s, ReachableE V alpha s → ReachableE V alpha (nextE V alpha s).2
  | skip : ∀ z s, ReachableE V alpha s → ReachableE V alpha (discardE V alpha z s)

theorem madd_lt {W : Nat} (h : 0 < W) (x y : Nat) : madd W x y < W :=
  Nat.mod_lt _ h

theorem mxor_lt {W : Nat} (h : 0 < W) (x y : Nat) : mxor W x y < W :=
  Nat.mod_lt _ h

theorem msub_lt {W : Nat} (h : 0 < W) (x y : Nat) : msub W x y < W :=
  Nat.mod_lt _ h

theorem mnot_lt {W : Nat} (h : 0 < W) (x : Nat) : mnot W x < W := by
  unfold mnot
  omega

theorem goodV32 : GoodV V32 := by
  refine ⟨by decide, by decide, fun r => ?_⟩
  refine ⟨?_, ?_, ?_, ?_, ?_, ?_, ?_, ?_⟩ <;>
    simp only [V32, mix32] <;>
    first
      | exact madd_lt (by decide) _ _
      | exact mxor_lt (by decide) _ _

theorem goodV64 : GoodV V64 := by
  refine ⟨by decide, by decide, fun r => ?_⟩
  refine ⟨?_, ?_, ?_, ?_, ?_, ?_, ?_, ?_⟩ <;>
    simp only [V64, mix64] <;>
    first
      | exact madd_lt (by decide) _ _
      | exact mxor_lt (by decide) _ _
      | exact msub_lt (by decide) _ _

theorem foldl_preserve {α β : Type} (P : α → Prop) (f : α → β → α)
    (hstep : ∀ a b, P a → P (f a b)) :
    ∀ (l : List β) (s : α), P s → P (l.foldl f s) := by
  intro l
  induction l with
  | nil => intro s h; exact h
  | cons x xs ih =>
    intro s h
    exact ih _ (hstep _ _ h)

theorem write8_length (m : List Nat) (i : Nat) (r : Regs) :
    (write8 m i r).length = m.length := by
  simp [write8]

theorem write8_bound {W : Nat} {m : List Nat} {r : Regs} (i : Nat)
    (hm : ∀ x ∈ m, x < W) (hr : RegsLt W r) :
    ∀ x ∈ write8 m i r, x < W := by
  intro x hx
  unfold write8 at hx
  obtain ⟨h1, h2, h3, h4, h5, h6, h7, h8⟩ := hr
  rcases List.mem_or_eq_of_mem_set hx with hx | rfl
  · rcases List.mem_or_eq_of_mem_set hx with hx | rfl
    · rcases List.mem_or_eq_of_mem_set hx with hx | rfl
      · rcases List.mem_or_eq_of_mem_set hx with hx | rfl
        · rcases List.mem_or_eq_of_mem_set hx with hx | rfl
          · rcases List.mem_or_eq_of_mem_set hx with hx | rfl
            · rcases List.mem_or_eq_of_mem_set hx with hx | rfl
              · rcases List.mem_or_eq_of_mem_set hx with hx | rfl
                · exact hm x hx
                · exact h1
              · exact h2
            · exact h3
          · exact h4
        · exact h5
      · exact h6
    · exact h7
  · exact h8

theorem initPassN_mem {V : Variant} (hV : GoodV V) (useMem : Bool)
    (res : List Nat) (n : Nat) (start : Regs × List Nat)
    (hlen : start.2.length = 2 ^ alpha) (hmem : ∀ x ∈ start.2, x < V.W) :
    (initPassN V useMem res n start).2.length = 2 ^ alpha ∧
      ∀ x ∈ (initPassN V useMem res n start).2, x < V.W := by
  unfold initPassN
  refine foldl_preserve
    (fun p : Regs × List Nat => p.2.length = 2 ^ alpha ∧ ∀ x ∈ p.2, x < V.W)
    _ ?_ _ _ ⟨hlen, hmem⟩
  intro p k hp
  unfold initChunk
  constructor
  · simpa [write8_length] using hp.1
  · exact write8_bound _ hp.2 (hV.2.2 _)

theorem rngstepG_typed {V : Variant} (hW : 0 < V.W) (alpha ss : Nat)
    (g : GenSt) (i : Nat) (hg : (g.mem.length = 2 ^ alpha ∧ g.res.length = 2 ^ alpha) ∧
      (∀ x ∈ g.mem, x < V.W) ∧ (∀ x ∈ g.res, x < V.W) ∧ g.a < V.W ∧ g.b < V.W) :
    ((rngstepG V alpha ss g i).mem.length = 2 ^ alpha ∧
        (rngstepG V alpha ss g i).res.length = 2 ^ alpha) ∧
      (∀ x ∈ (rngstepG V alpha ss g i).mem, x < V.W) ∧
      (∀ x ∈ (rngstepG V alpha ss g i).res, x < V.W) ∧
      (rngstepG V alpha ss g i).a < V.W ∧ (rngstepG V alpha ss g i).b < V.W := by
  obtain ⟨⟨hlm, hlr⟩, hbm, hbr, _, _⟩ := hg
  unfold rngstepG
  refine ⟨⟨by simpa using hlm, by simpa using hlr⟩, ?_, ?_, madd_lt hW _ _, madd_lt hW _ _⟩
  · intro x hx
    rcases List.mem_or_eq_of_mem_set hx with hx | rfl
    · exact hbm x hx
    · exact madd_lt hW _ _
  · intro x hx
    rcases List.mem_or_eq_of_mem_set hx with hx | rfl
    · exact hbr x hx
    · exact madd_lt hW _ _

theorem doIsaacG_typed {V : Variant} {alpha : Nat} {s : EngState}
    (hW : 0 < V.W) (hs : TypedE V alpha s) :
    TypedE V alpha (doIsaacG V alpha s) := by
  obtain ⟨hlr, hlm, hbr, hbm, ha, hb, hc⟩ := hs
  unfold doIsaacG
  have key :
      (((List.range (2 ^ alpha)).foldl (rngstepG V alpha (2 ^ alpha))
            ⟨s.memory, s.result, s.a, madd V.W s.b (madd V.W s.c 1)⟩).mem.length = 2 ^ alpha ∧
          ((List.range (2 ^ alpha)).foldl (rngstepG V alpha (2 ^ alpha))
            ⟨s.memory, s.result, s.a, madd V.W s.b (madd V.W s.c 1)⟩).res.length = 2 ^ alpha) ∧
        (∀ x ∈ ((List.range (2 ^ alpha)).foldl (rngstepG V alpha (2 ^ alpha))
            ⟨s.memory, s.result, s.a, madd V.W s.b (madd V.W s.c 1)⟩).mem, x < V.W) ∧
        (∀ x ∈ ((List.range (2 ^ alpha)).foldl (rngstepG V alpha (2 ^ alpha))
            ⟨s.memory, s.result, s.a, madd V.W s.b (madd V.W s.c 1)⟩).res, x < V.W) ∧
        ((List.range (2 ^ alpha)).foldl (rngstepG V alpha (2 ^ alpha))
            ⟨s.memory, s.result, s.a, madd V.W s.b (madd V.W s.c 1)⟩).a < V.W ∧
        ((List.range (2 ^ alpha)).foldl (rngstepG V alpha (2 ^ alpha))
            ⟨s.memory, s.result, s.a, madd V.W s.b (madd V.W s.c 1)⟩).b < V.W := by
    refine foldl_preserve
      (fun g : GenSt => (g.mem.length = 2 ^ alpha ∧ g.res.length = 2 ^ alpha) ∧
        (∀ x ∈ g.mem, x < V.W) ∧ (∀ x ∈ g.res, x < V.W) ∧ g.a < V.W ∧ g.b < V.W)
      _ ?_ _ _ ⟨⟨hlm, hlr⟩, hbm, hbr, ha, madd_lt hW _ _⟩
    intro g i hg
    exact rngstepG_typed hW alpha (2 ^ alpha) g i hg
  exact ⟨key.1.2, key.1.1, key.2.2.1, key.2.1, key.2.2.2.1, key.2.2.2.2, madd_lt hW _ _⟩

theorem typedE_count {V : Variant} {alpha : Nat} (s : EngState) (n : Nat) :
    TypedE V alpha { s with count := n } ↔ TypedE V alpha s := Iff.rfl

theorem initE_WF {V : Variant} {alpha : Nat} {s : EngState} (hV : GoodV V)
    (hlr : s.result.length = 2 ^ alpha) (hlm : s.memory.length = 2 ^ alpha)
    (hbr : ∀ x ∈ s.result, x < V.W) (hbm : ∀ x ∈ s.memory, x < V.W) :
    WFE V alpha (initE V alpha s) := by
  unfold initE
  set r1 := V.mix (V.mix (V.mix (V.mix ⟨V.golden, V.golden, V.golden, V.golden,
    V.golden, V.golden, V.golden, V.golden⟩))) with hr1
  have h1 := initPassN_mem hV false s.result (2 ^ alpha / 8) (r1, s.memory) hlm hbm
  have h2 := initPassN_mem hV true s.result (2 ^ alpha / 8)
    (initPassN V false s.result (2 ^ alpha / 8) (r1, s.memory)) h1.1 h1.2
  have hs1 : TypedE V alpha
      ⟨s.result, (initPassN V true s.result (2 ^ alpha / 8)
        (initPassN V false s.result (2 ^ alpha / 8) (r1, s.memory))).2, 0, 0, 0, s.count⟩ :=
    ⟨hlr, h2.1, hbr, h2.2, hV.1, hV.1, hV.1⟩
  have hs2 := doIsaacG_typed hV.1 hs1
  exact ⟨(typedE_count _ _).mpr hs2, Nat.le_refl _⟩

theorem fillCyc_length (W : Nat) (xs : List Nat) :
    ∀ n p, (fillCyc W xs n p).length = n := by
  intro n
  induction n with
  | zero => intro p; rfl
  | succ n ih =>
    intro p
    simp [fillCyc, ih]

theorem fillCyc_bound {W : Nat} (hW : 0 < W) (xs : List Nat) :
    ∀ n p, ∀ x ∈ fillCyc W xs n p, x < W := by
  intro n
  induction n with
  | zero => intro p x hx; cases hx
  | succ n ih =>
    intro p x hx
    simp only [fillCyc] at hx
    rcases List.mem_cons.mp hx with rfl | hx
    · exact Nat.mod_lt _ hW
    · exact ih _ _ hx

theorem seedE_WF {V : Variant} {alpha : Nat} {s : Nat} {st : EngState}
    (hV : GoodV V) (hs : s < V.W) (hlm : st.memory.length = 2 ^ alpha)
    (hbm : ∀ x ∈ st.memory, x < V.W) :
    WFE V alpha (seedE V alpha s st) := by
  unfold seedE
  exact initE_WF hV (by simp) hlm
    (fun x hx => (List.eq_of_mem_replicate hx) ▸ hs) hbm

theorem seedIterE_WF {V : Variant} {alpha : Nat} {xs : List Nat} {st : EngState}
    (hV : GoodV V) (hlm : st.memory.length = 2 ^ alpha)
    (hbm : ∀ x ∈ st.memory, x < V.W) :
    WFE V alpha (seedIterE V alpha xs st) := by
  unfold seedIterE
  exact initE_WF hV (fillCyc_length _ _ _ _) hlm
    (fillCyc_bound hV.1 _ _ _) hbm

theorem seedArrE_WF {V : Variant} {alpha : Nat} {xs : List Nat} {st : EngState}
    (hV : GoodV V) (hlm : st.memory.length = 2 ^ alpha)
    (hbm : ∀ x ∈ st.memory, x < V.W) :
    WFE V alpha (seedArrE V alpha xs st) := by
  unfold seedArrE
  refine initE_WF hV (by simp) hlm ?_ hbm
  intro x hx
  simp only [List.mem_map] at hx
  obtain ⟨i, _, rfl⟩ := hx
  exact Nat.mod_lt _ hV.1

theorem nextE_zero {V : Variant} {alpha : Nat} {s : EngState}
    (h0 : s.count = 0) :
    nextE V alpha s =
      ((doIsaacG V alpha s).result.getD (2 ^ alpha - 1) 0,
        { doIsaacG V alpha s with count := 2 ^ alpha - 1 }) := by
  simp [nextE, h0]

theorem nextE_pos {V : Variant} {alpha : Nat} {s : EngState}
    (h0 : s.count ≠ 0) :
    nextE V alpha s =
      (s.result.getD (s.count - 1) 0, { s with count := s.count - 1 }) := by
  simp [nextE, h0]

theorem nextE_WF {V : Variant} {alpha : Nat} {s : EngState}
    (hW : 0 < V.W) (h : WFE V alpha s) : WFE V alpha (nextE V alpha s).2 := by
  obtain ⟨ht, hc⟩ := h
  by_cases h0 : s.count = 0
  · rw [nextE_zero h0]
    exact ⟨(typedE_count _ _).mpr (doIsaacG_typed hW ht), Nat.sub_le _ _⟩
  · rw [nextE_pos h0]
    exact ⟨(typedE_count _ _).mpr ht, Nat.le_trans (Nat.sub_le _ _) hc⟩

theorem discardE_WF {V : Variant} {alpha : Nat} (hW : 0 < V.W) :
    ∀ (z : Nat) (s : EngState), WFE V alpha s → WFE V alpha (discardE V alpha z s) := by
  intro z
  induction z with
  | zero => intro s h; exact h
  | succ z ih =>
    intro s h
    exact ih _ (nextE_WF hW h)

theorem reachable_WF {V : Variant} {alpha : Nat} {s : EngState}
    (hV : GoodV V) (h : ReachableE V alpha s) : WFE V alpha s := by
  induction h with
  | seed s st hs hlm hbm => exact seedE_WF hV hs hlm hbm
  | seedIter xs st hne hlm hbm => exact seedIterE_WF hV hlm hbm
  | seedArr xs st hlm hbm => exact seedArrE_WF hV hlm hbm
  | next s _ ih => exact nextE_WF hV.1 ih
  | skip z s _ ih => exact discardE_WF hV.1 _ _ ih

theorem readNum_eq_some {bound : Nat} {ts rest : List (Option Nat)} {v : Nat}
    (h : readNum bound ts = some (v, rest)) :
    ts = some v :: rest ∧ v < bound := by
  match ts with
  | [] => exact absurd h (by simp [readNum])
  | none :: ts1 => exact absurd h (by simp [readNum])
  | some n :: ts1 =>
    by_cases hn : n < bound
    · simp only [readNum, if_pos hn, Option.some.injEq, Prod.mk.injEq] at h
      obtain ⟨rfl, rfl⟩ := h
      exact ⟨rfl, hn⟩
    · simp [readNum, if_neg hn] at h

theorem readNum_complete {bound v : Nat} {rest : List (Option Nat)}
    (hv : v < bound) : readNum bound (some v :: rest) = some (v, rest) := by
  simp [readNum, if_pos hv]

theorem readNums_eq_some {bound : Nat} :
    ∀ {k : Nat} {ts rest : List (Option Nat)} {vs : List Nat},
      readNums bound k ts = some (vs, rest) →
      ts = vs.map some ++ rest ∧ vs.length = k ∧ ∀ v ∈ vs, v < bound := by
  intro k
  induction k with
  | zero =>
    intro ts rest vs h
    simp only [readNums, Option.some.injEq, Prod.mk.injEq] at h
    obtain ⟨rfl, rfl⟩ := h
    exact ⟨rfl, rfl, by simp⟩
  | succ k ih =>
    intro ts rest vs h
    unfold readNums at h
    rcases hr : readNum bound ts with _ | ⟨v, ts1⟩ <;> rw [hr] at h <;>
      dsimp only [] at h
    · simp at h
    · rcases hrs : readNums bound k ts1 with _ | ⟨vs1, ts2⟩ <;> rw [hrs] at h <;>
        dsimp only [] at h
      · simp at h
      · simp only [Option.some.injEq, Prod.mk.injEq] at h
        obtain ⟨rfl, rfl⟩ := h
        obtain ⟨rfl, hv⟩ := readNum_eq_some hr
        obtain ⟨rfl, hlen, hbs⟩ := ih hrs
        refine ⟨rfl, by simp [hlen], ?_⟩
        intro w hw
        rcases List.mem_cons.mp hw with rfl | hw
        · exact hv
        · exact hbs w hw

theorem readNums_complete {bound : Nat} :
    ∀ {vs : List Nat} {rest : List (Option Nat)}, (∀ v ∈ vs, v < bound) →
      readNums bound vs.length (vs.map some ++ rest) = some (vs, rest) := by
  intro vs
  induction vs with
  | nil => intro rest _; rfl
  | cons v vs ih =>
    intro rest hb
    have hv : v < bound := hb v (List.mem_cons_self _ _)
    simp only [List.map_cons, List.length_cons, List.cons_append, readNums,
      readNum_complete hv]
    rw [ih (fun w hw => hb w (List.mem_cons_of_mem _ hw))]

theorem deserializeE_success {V : Variant} {alpha : Nat}
    {ts : List (Option Nat)} {x y : EngState}
    (h : deserializeE V alpha ts x = (y, false)) :
    ∃ (cnt av bv cv : Nat) (res mem : List Nat) (rest : List (Option Nat)),
      ts = some cnt ::
          (res.map some ++ mem.map some ++ [some av, some bv, some cv] ++ rest) ∧
        res.length = 2 ^ alpha ∧ mem.length = 2 ^ alpha ∧
        y = ⟨res, mem, av, bv, cv, cnt⟩ := by
  unfold deserializeE at h
  rcases h1 : readNum sizeTMod ts with _ | ⟨cnt, t1⟩ <;> rw [h1] at h <;> dsimp only [] at h
  · simp at h
  rcases h2 : readNums V.W (2 ^ alpha) t1 with _ | ⟨res, t2⟩ <;> rw [h2] at h <;> dsimp only [] at h
  · simp at h
  rcases h3 : readNums V.W (2 ^ alpha) t2 with _ | ⟨mem, t3⟩ <;> rw [h3] at h <;> dsimp only [] at h
  · simp at h
  rcases h4 : readNum V.W t3 with _ | ⟨av, t4⟩ <;> rw [h4] at h <;> dsimp only [] at h
  · simp at h
  rcases h5 : readNum V.W t4 with _ | ⟨bv, t5⟩ <;> rw [h5] at h <;> dsimp only [] at h
  · simp at h
  rcases h6 : readNum V.W t5 with _ | ⟨cv, t6⟩ <;> rw [h6] at h <;> dsimp only [] at h
  · simp at h
  simp only [Prod.mk.injEq] at h
  obtain ⟨rfl, -⟩ := h
  obtain ⟨rfl, -⟩ := readNum_eq_some h1
  obtain ⟨rfl, hres, -⟩ := readNums_eq_some h2
  obtain ⟨rfl, hmem, -⟩ := readNums_eq_some h3
  obtain ⟨rfl, -⟩ := readNum_eq_some h4
  obtain ⟨rfl, -⟩ := readNum_eq_some h5
  obtain ⟨rfl, -⟩ := readNum_eq_some h6
  exact ⟨cnt, av, bv, cv, res, mem, t6, by simp, hres, hmem, rfl⟩

theorem deserializeE_serializeE {V : Variant} {alpha : Nat} {s y : EngState}
    (halpha : alpha < 64) (hWF : WFE V alpha s) :
    deserializeE V alpha (serializeE s) y = (s, false) := by
  obtain ⟨⟨hlr, hlm, hbr, hbm, ha, hb, hc⟩, hcnt⟩ := hWF
  have hcount : s.count < sizeTMod := by
    have h1 : (2 : Nat) ^ alpha ≤ 2 ^ 63 := Nat.pow_le_pow_right (by decide) (by omega)
    have : sizeTMod = 2 ^ 64 := rfl
    omega
  have h1 : readNum sizeTMod (serializeE s) =
      some (s.count,
        s.result.map some ++ (s.memory.map some ++ [some s.a, some s.b, some s.c])) := by
    unfold serializeE
    exact readNum_complete hcount
  have h2 : readNums V.W (2 ^ alpha)
      (s.result.map some ++ (s.memory.map some ++ [some s.a, some s.b, some s.c])) =
      some (s.result, s.memory.map some ++ [some s.a, some s.b, some s.c]) := by
    rw [show (2 : Nat) ^ alpha = s.result.length from hlr.symm]
    exact readNums_complete hbr
  have h3 : readNums V.W (2 ^ alpha)
      (s.memory.map some ++ [some s.a, some s.b, some s.c]) =
      some (s.memory, [some s.a, some s.b, some s.c]) := by
    rw [show (2 : Nat) ^ alpha = s.memory.length from hlm.symm]
    exact readNums_complete hbm
  unfold deserializeE
  rw [h1]; dsimp only []
  rw [h2]; dsimp only []
  rw [h3]; dsimp only []
  rw [readNum_complete ha]; dsimp only []
  rw [readNum_complete hb]; dsimp only []
  rw [readNum_complete hc]

theorem deserializeE_fail_frame {V : Variant} {alpha : Nat}
    {ts : List (Option Nat)} {x : EngState}
    (h : (deserializeE V alpha ts x).2 = true) :
    (deserializeE V alpha ts x).1 = x := by
  unfold deserializeE at h ⊢
  rcases h1 : readNum sizeTMod ts with _ | ⟨cnt, t1⟩
  · rfl
  rw [h1] at h
  dsimp only [] at h ⊢
  rcases h2 : readNums V.W (2 ^ alpha) t1 with _ | ⟨res, t2⟩
  · rfl
  rw [h2] at h
  dsimp only [] at h ⊢
  rcases h3 : readNums V.W (2 ^ alpha) t2 with _ | ⟨mem, t3⟩
  · rfl
  rw [h3] at h
  dsimp only [] at h ⊢
  rcases h4 : readNum V.W t3 with _ | ⟨av, t4⟩
  · rfl
  rw [h4] at h
  dsimp only [] at h ⊢
  rcases h5 : readNum V.W t4 with _ | ⟨bv, t5⟩
  · rfl
  rw [h5] at h
  dsimp only [] at h ⊢
  rcases h6 : readNum V.W t5 with _ | ⟨cv, t6⟩
  · rfl
  rw [h6] at h
  simp at h

theorem deserializeE_fails_of_bad {V : Variant} {alpha : Nat}
    {ts : List (Option Nat)} {x : EngState}
    (hbad : ts.length < 2 * 2 ^ alpha + 4 ∨
      ∃ i, i < 2 * 2 ^ alpha + 4 ∧ ts[i]? = some none) :
    (deserializeE V alpha ts x).2 = true := by
  cases hfail : (deserializeE V alpha ts x).2
  · exfalso
    have hsucc : deserializeE V alpha ts x = ((deserializeE V alpha ts x).1, false) := by
      rw [← hfail]
    obtain ⟨cnt, av, bv, cv, res, mem, rest, hts, hres, hmem, -⟩ :=
      deserializeE_success hsucc
    have hfront : ts = (cnt :: (res ++ mem ++ [av, bv, cv])).map some ++ rest := by
      rw [hts]
      simp
    set front := cnt :: (res ++ mem ++ [av, bv, cv]) with hfrontdef
    have hflen : front.length = 2 * 2 ^ alpha + 4 := by
      simp [hfrontdef, hres, hmem]
      omega
    rcases hbad with hshort | ⟨i, hi, hjunk⟩
    · rw [hfront] at hshort
      simp [hflen] at hshort
    · rw [hfront] at hjunk
      rw [List.getElem?_append] at hjunk
      have hilt : i < (front.map some).length := by
        simp [hflen]
        omega
      rw [if_pos hilt] at hjunk
      rw [List.getElem?_map] at hjunk
      rcases hfw : front[i]? with _ | w <;> rw [hfw] at hjunk <;> simp at hjunk
  · rfl

theorem set_agree {m1 m2 : List Nat} (hlen : m1.length = m2.length)
    {i j v : Nat} (h : m1[i]? = m2[i]? ∨ i = j) :
    (m1.set j v)[i]? = (m2.set j v)[i]? := by
  rw [List.getElem?_set, List.getElem?_set, hlen]
  rcases h with h | rfl
  · rw [h]
  · simp

theorem set_agree_step {m1 m2 : List Nat} (hlen : m1.length = m2.length)
    {i lo hi : Nat} (v : Nat)
    (h : m1[i]? = m2[i]? ∨ (lo ≤ i ∧ i < hi)) :
    (m1.set lo v)[i]? = (m2.set lo v)[i]? ∨ (lo + 1 ≤ i ∧ i < hi) := by
  rcases h with h | ⟨h1, h2⟩
  · exact Or.inl (set_agree hlen (Or.inl h))
  · by_cases hji : i = lo
    · exact Or.inl (set_agree hlen (Or.inr hji))
    · exact Or.inr ⟨by omega, h2⟩

theorem write8_agree {m1 m2 : List Nat} (hlen : m1.length = m2.length)
    (j : Nat) (r : Regs) (i : Nat)
    (h : m1[i]? = m2[i]? ∨ (j ≤ i ∧ i < j + 8)) :
    (write8 m1 j r)[i]? = (write8 m2 j r)[i]? := by
  unfold write8
  have e1 : (m1.set j r.a).length = (m2.set j r.a).length := by
    simp [hlen]
  have s1 := set_agree_step hlen r.a h
  have e2 : ((m1.set j r.a).set (j+1) r.b).length =
      ((m2.set j r.a).set (j+1) r.b).length := by simp [hlen]
  have s2 := set_agree_step e1 r.b s1
  have e3 : (((m1.set j r.a).set (j+1) r.b).set (j+2) r.c).length =
      (((m2.set j r.a).set (j+1) r.b).set (j+2) r.c).length := by simp [hlen]
  have s3 := set_agree_step e2 r.c s2
  have e4 : ((((m1.set j r.a).set (j+1) r.b).set (j+2) r.c).set (j+3) r.d).length =
      ((((m2.set j r.a).set (j+1) r.b).set (j+2) r.c).set (j+3) r.d).length := by
    simp [hlen]
  have s4 := set_agree_step e3 r.d s3
  have e5 : (((((m1.set j r.a).set (j+1) r.b).set (j+2) r.c).set (j+3) r.d).set
        (j+4) r.e).length =
      (((((m2.set j r.a).set (j+1) r.b).set (j+2) r.c).set (j+3) r.d).set
        (j+4) r.e).length := by simp [hlen]
  have s5 := set_agree_step e4 r.e s4
  have e6 : ((((((m1.set j r.a).set (j+1) r.b).set (j+2) r.c).set (j+3) r.d).set
        (j+4) r.e).set (j+5) r.f).length =
      ((((((m2.set j r.a).set (j+1) r.b).set (j+2) r.c).set (j+3) r.d).set
        (j+4) r.e).set (j+5) r.f).length := by simp [hlen]
  have s6 := set_agree_step e5 r.f s5
  have e7 : (((((((m1.set j r.a).set (j+1) r.b).set (j+2) r.c).set (j+3) r.d).set
        (j+4) r.e).set (j+5) r.f).set (j+6) r.g).length =
      (((((((m2.set j r.a).set (j+1) r.b).set (j+2) r.c).set (j+3) r.d).set
        (j+4) r.e).set (j+5) r.f).set (j+6) r.g).length := by simp [hlen]
  have s7 := set_agree_step e6 r.g s6
  have s8 := set_agree_step e7 r.h s7
  rcases s8 with s8 | ⟨c1, c2⟩
  · exact s8
  · omega

theorem initPassN_succ (V : Variant) (useMem : Bool) (res : List Nat) (n : Nat)
    (start : Regs × List Nat) :
    initPassN V useMem res (n + 1) start =
      initChunk V
        (if useMem then (initPassN V useMem res n start).2 else res)
        (initPassN V useMem res n start) (8 * n) := by
  unfold initPassN
  rw [List.range_succ, List.foldl_append]
  rfl

theorem initPassN_length (V : Variant) (useMem : Bool) (res : List Nat) :
    ∀ (n : Nat) (start : Regs × List Nat),
      (initPassN V useMem res n start).2.length = start.2.length := by
  intro n
  induction n with
  | zero => intro start; rfl
  | succ n ih =>
    intro start
    rw [initPassN_succ]
    unfold initChunk
    simp only [write8_length]
    exact ih start

theorem initPassN_false_agree {V : Variant} (res : List Nat) (r : Regs)
    {m1 m2 : List Nat} (hlen : m1.length = m2.length) :
    ∀ n,
      (initPassN V false res n (r, m1)).1 = (initPassN V false res n (r, m2)).1 ∧
        ∀ i, ((initPassN V false res n (r, m1)).2[i]? =
            (initPassN V false res n (r, m2)).2[i]? ∨ 8 * n ≤ i) := by
  intro n
  induction n with
  | zero => exact ⟨rfl, fun i => Or.inr (by omega)⟩
  | succ n ih =>
    obtain ⟨hr, hag⟩ := ih
    have hl1 : (initPassN V false res n (r, m1)).2.length =
        (initPassN V false res n (r, m2)).2.length := by
      rw [initPassN_length, initPassN_length]
      exact hlen
    rw [initPassN_succ, initPassN_succ]
    unfold initChunk
    simp only [Bool.false_eq_true, if_neg, ite_false]
    constructor
    · rw [hr]
    · intro i
      rcases hag i with h | hge
      · refine Or.inl ?_
        rw [hr]
        exact write8_agree hl1 _ _ _ (Or.inl h)
      · by_cases hlt : i < 8 * n + 8
        · refine Or.inl ?_
          rw [hr]
          exact write8_agree hl1 _ _ _ (Or.inr ⟨hge, by omega⟩)
        · exact Or.inr (by omega)

theorem initE_indep {V : Variant} {alpha : Nat} {st1 st2 : EngState}
    (h8 : 8 ∣ 2 ^ alpha) (hres : st1.result = st2.result)
    (hl1 : st1.memory.length = 2 ^ alpha) (hl2 : st2.memory.length = 2 ^ alpha) :
    initE V alpha st1 = initE V alpha st2 := by
  obtain ⟨q, hq⟩ := h8
  have hlen : st1.memory.length = st2.memory.length := by rw [hl1, hl2]
  obtain ⟨hr, hag⟩ := initPassN_false_agree (V := V) st1.result
    (V.mix (V.mix (V.mix (V.mix ⟨V.golden, V.golden, V.golden, V.golden,
      V.golden, V.golden, V.golden, V.golden⟩)))) hlen (2 ^ alpha / 8)
  have hdiv : 8 * (2 ^ alpha / 8) = 2 ^ alpha := by omega
  have hmem : (initPassN V false st1.result (2 ^ alpha / 8)
        (V.mix (V.mix (V.mix (V.mix ⟨V.golden, V.golden, V.golden, V.golden,
          V.golden, V.golden, V.golden, V.golden⟩))), st1.memory)).2 =
      (initPassN V false st1.result (2 ^ alpha / 8)
        (V.mix (V.mix (V.mix (V.mix ⟨V.golden, V.golden, V.golden, V.golden,
          V.golden, V.golden, V.golden, V.golden⟩))), st2.memory)).2 := by
    apply List.ext_getElem?
    intro i
    rcases hag i with h | hge
    · exact h
    · rw [List.getElem?_eq_none, List.getElem?_eq_none]
      · rw [initPassN_length]
        dsimp only []
        omega
      · rw [initPassN_length]
        dsimp only []
        omega
  have hp1 : (initPassN V false st1.result (2 ^ alpha / 8)
        (V.mix (V.mix (V.mix (V.mix ⟨V.golden, V.golden, V.golden, V.golden,
          V.golden, V.golden, V.golden, V.golden⟩))), st1.memory)) =
      (initPassN V false st1.result (2 ^ alpha / 8)
        (V.mix (V.mix (V.mix (V.mix ⟨V.golden, V.golden, V.golden, V.golden,
          V.golden, V.golden, V.golden, V.golden⟩))), st2.memory)) :=
    Prod.ext hr hmem
  unfold initE
  dsimp only []
  rw [← hres, hp1]
  rfl

theorem discardE_eq_nextNE (V : Variant) (alpha : Nat) :
    ∀ (n : Nat) (s : EngState), discardE V alpha n s = nextNE V alpha n s := by
  intro n
  induction n with
  | zero => intro s; rfl
  | succ n ih =>
    intro s
    show discardE V alpha n (nextE V alpha s).2 = _
    rw [ih]
    unfold nextNE
    rw [Function.iterate_succ_apply]

theorem beqE_refl (ss : Nat) (s : EngState) : beqE ss s s = true := by
  simp [beqE]

theorem fillCyc_eq_map (W : Nat) (xs : List Nat) (hx : xs ≠ []) :
    ∀ n q, q ≤ xs.length →
      fillCyc W xs n q =
        (List.range n).map (fun j => xs.getD ((q + j) % xs.length) 0 % W) := by
  intro n
  induction n with
  | zero => intro q _; rfl
  | succ n ih =>
    intro q hq
    have hk : 0 < xs.length := List.length_pos.mpr hx
    have hq' : (if q = xs.length then 0 else q) = q % xs.length := by
      by_cases h : q = xs.length
      · simp [h]
      · rw [if_neg h, Nat.mod_eq_of_lt (by omega)]
    rw [List.range_succ_eq_map]
    simp only [fillCyc, hq', List.map_cons, List.map_map]
    have hqlt : q % xs.length < xs.length := Nat.mod_lt q hk
    refine List.cons_eq_cons.mpr ⟨rfl, ?_⟩
    rw [ih (q % xs.length + 1) (by omega)]
    apply List.map_congr_left
    intro j hj
    simp only [Function.comp_apply]
    have harith : (q % xs.length + 1 + j) % xs.length = (q + Nat.succ j) % xs.length := by
      rw [show q % xs.length + 1 + j = q % xs.length + (1 + j) by omega,
        Nat.mod_add_mod, show q + (1 + j) = q + Nat.succ j by omega]
    rw [harith]

theorem flatten_replicate_getD (xs : List Nat) :
    ∀ (m i : Nat), i < m * xs.length →
      (List.flatten (List.replicate m xs)).getD i 0 = xs.getD (i % xs.length) 0 := by
  intro m
  induction m with
  | zero =>
    intro i hi
    rw [Nat.zero_mul] at hi
    exact absurd hi (Nat.not_lt_zero i)
  | succ m ih =>
    intro i hi
    have hk : 0 < xs.length := by
      rcases Nat.eq_zero_or_pos xs.length with h | h
      · rw [h, Nat.mul_zero] at hi
        omega
      · exact h
    have hexp : (m + 1) * xs.length = m * xs.length + xs.length := by ring
    rw [List.replicate_succ, List.flatten_cons]
    by_cases h : i < xs.length
    · rw [List.getD_eq_getElem?_getD, List.getElem?_append, if_pos h,
        ← List.getD_eq_getElem?_getD, Nat.mod_eq_of_lt h]
    · rw [List.getD_eq_getElem?_getD, List.getElem?_append, if_neg h,
        ← List.getD_eq_getElem?_getD, ih (i - xs.length) (by omega),
        ← Nat.mod_eq_sub_mod (by omega)]

theorem flatten_replicate_length (xs : List Nat) (m : Nat) :
    (List.flatten (List.replicate m xs)).length = m * xs.length := by
  induction m with
  | zero => simp
  | succ m ih =>
    rw [List.replicate_succ, List.flatten_cons, List.length_append, ih]
    ring

theorem doIsaacG_lengths (V : Variant) (alpha : Nat) (s : EngState) :
    (doIsaacG V alpha s).memory.length = s.memory.length ∧
      (doIsaacG V alpha s).result.length = s.result.length := by
  unfold doIsaacG
  have key := foldl_preserve
    (fun g : GenSt => g.mem.length = s.memory.length ∧ g.res.length = s.result.length)
    (rngstepG V alpha (2 ^ alpha))
    (fun g i hg => by
      unfold rngstepG
      refine ⟨by simpa using hg.1, by simpa using hg.2⟩)
    (List.range (2 ^ alpha))
    ⟨s.memory, s.result, s.a, madd V.W s.b (madd V.W s.c 1)⟩ ⟨rfl, rfl⟩
  exact ⟨key.1, key.2⟩

theorem initE_lengths (V : Variant) (alpha : Nat) (s : EngState) :
    (initE V alpha s).result.length = s.result.length ∧
      (initE V alpha s).memory.length = s.memory.length := by
  unfold initE
  dsimp only []
  constructor
  · exact (doIsaacG_lengths V alpha _).2
  · rw [(doIsaacG_lengths V alpha _).1]
    dsimp only []
    rw [initPassN_length, initPassN_length]

theorem mkEngineE_lengths (V : Variant) (alpha : Nat) (s : Nat) :
    (mkEngineE V alpha s).result.length = 2 ^ alpha ∧
      (mkEngineE V alpha s).memory.length = 2 ^ alpha := by
  unfold mkEngineE seedE
  constructor
  · rw [(initE_lengths V alpha _).1]
    simp
  · rw [(initE_lengths V alpha _).2]
    simp

theorem seedE_indep {V : Variant} {alpha : Nat} (s : Nat) {st1 st2 : EngState}
    (h8 : 8 ∣ 2 ^ alpha) (hl1 : st1.memory.length = 2 ^ alpha)
    (hl2 : st2.memory.length = 2 ^ alpha) :
    seedE V alpha s st1 = seedE V alpha s st2 := by
  unfold seedE
  exact initE_indep h8 rfl hl1 hl2

theorem beqE_false_of_count (ss : Nat) {x y : EngState} (h : x.count ≠ y.count) :
    beqE ss x y = false := by
  unfold beqE
  rw [beq_eq_false_iff_ne.mpr h]
  simp

theorem initE_count (V : Variant) (alpha : Nat) (s : EngState) :
    (initE V alpha s).count = 2 ^ alpha := rfl

theorem pow_div_eight (alpha : Nat) (h3 : 3 ≤ alpha) : 8 ∣ 2 ^ alpha := by
  have : (2 : Nat) ^ alpha = 8 * 2 ^ (alpha - 3) := by
    rw [show (8 : Nat) = 2 ^ 3 from rfl, ← pow_add]
    congr 1
    omega
  exact ⟨2 ^ (alpha - 3), this⟩

/-- C1: a call to `operator()` finding `count == 0` runs the variant's
generation step `do_isaac`, returns the refreshed buffer slot at index
`state_size - 1` and sets `count = state_size - 1`; a call finding
`count > 0` decrements `count` and returns the buffer slot at the new
`count` index, without running the generation step. -/
theorem claim1_next_behavior (V : Variant) (alpha : Nat) (s : EngState) :
    (s.count = 0 →
      nextE V alpha s =
        ((doIsaacG V alpha s).result.getD (2 ^ alpha - 1) 0,
          { doIsaacG V alpha s with count := 2 ^ alpha - 1 })) ∧
    (0 < s.count →
      nextE V alpha s =
        (s.result.getD (s.count - 1) 0, { s with count := s.count - 1 })) :=
  ⟨fun h0 => nextE_zero h0, fun hp => nextE_pos (by omega)⟩

/-- Witness for C1: the two branches of `operator()` evaluated at
concrete 32-bit engine states. -/
theorem claim1_next_behavior_witness :
    (0 < (mkEngineE V32 3 0).count ∧
      nextE V32 3 (mkEngineE V32 3 0) =
        ((mkEngineE V32 3 0).result.getD ((mkEngineE V32 3 0).count - 1) 0,
          { mkEngineE V32 3 0 with count := (mkEngineE V32 3 0).count - 1 })) ∧
    ((⟨List.replicate 8 1, List.replicate 8 2, 3, 4, 5, 0⟩ : EngState).count = 0 ∧
      nextE V32 3 ⟨List.replicate 8 1, List.replicate 8 2, 3, 4, 5, 0⟩ =
        ((doIsaacG V32 3 ⟨List.replicate 8 1, List.replicate 8 2, 3, 4, 5, 0⟩).result.getD
            (2 ^ 3 - 1) 0,
          { doIsaacG V32 3 ⟨List.replicate 8 1, List.replicate 8 2, 3, 4, 5, 0⟩ with
              count := 2 ^ 3 - 1 })) :=
  ⟨⟨by decide, (claim1_next_behavior V32 3 (mkEngineE V32 3 0)).2 (by decide)⟩,
    ⟨rfl, (claim1_next_behavior V32 3 _).1 rfl⟩⟩

/-- C2: for every reachable engine state, serializing and then
deserializing into any engine of the same variant and Alpha succeeds and
reproduces the original state exactly, hence also under the
component-wise `operator==` of the scaffold. -/
theorem claim2_serialize_roundtrip (V : Variant) (alpha : Nat)
    (s y : EngState) (hV : GoodV V) (halpha : alpha < 64)
    (hr : ReachableE V alpha s) :
    deserializeE V alpha (serializeE s) y = (s, false) ∧
      beqE (2 ^ alpha) (deserializeE V alpha (serializeE s) y).1 s = true := by
  have hWF := reachable_WF hV hr
  have h := @deserializeE_serializeE V alpha s y halpha hWF
  refine ⟨h, ?_⟩
  rw [h]
  exact beqE_refl _ _

/-- Witness for C2: round trip through a freshly seeded 32-bit engine,
deserializing over a differently seeded target. -/
theorem claim2_serialize_roundtrip_witness :
    GoodV V32 ∧ 3 < 64 ∧ ReachableE V32 3 (mkEngineE V32 3 0) ∧
      deserializeE V32 3 (serializeE (mkEngineE V32 3 0)) (mkEngineE V32 3 5) =
        (mkEngineE V32 3 0, false) := by
  have hreach : ReachableE V32 3 (mkEngineE V32 3 0) :=
    ReachableE.seed 0 ⟨List.replicate 8 0, List.replicate 8 0, 0, 0, 0, 0⟩
      (by decide) (by decide) (by decide)
  exact ⟨goodV32, by omega, hreach,
    (claim2_serialize_roundtrip V32 3 (mkEngineE V32 3 0) (mkEngineE V32 3 5)
      goodV32 (by omega) hreach).1⟩

/-- C3: when the token stream is truncated before all
`1 + 2*state_size + 3` fields or contains a non-numeric token among
them, deserialization signals failure (fail flag) and leaves the target
engine's state entirely unmodified. -/
theorem claim3_deserialize_atomic (V : Variant) (alpha : Nat)
    (ts : List (Option Nat)) (x : EngState)
    (hbad : ts.length < 2 * 2 ^ alpha + 4 ∨
      ∃ i, i < 2 * 2 ^ alpha + 4 ∧ ts[i]? = some none) :
    deserializeE V alpha ts x = (x, true) := by
  have h2 := @deserializeE_fails_of_bad V alpha ts x hbad
  have h1 := deserializeE_fail_frame h2
  calc deserializeE V alpha ts x
      = ((deserializeE V alpha ts x).1, (deserializeE V alpha ts x).2) := rfl
    _ = (x, true) := by rw [h1, h2]

/-- Witness for C3: a stream with a non-numeric second token fails and
leaves the target untouched. -/
theorem claim3_deserialize_atomic_witness :
    (([some 1, none] : List (Option Nat)).length < 2 * 2 ^ 3 + 4 ∨
      ∃ i, i < 2 * 2 ^ 3 + 4 ∧ ([some 1, none] : List (Option Nat))[i]? = some none) ∧
      deserializeE V32 3 [some 1, none] ⟨[], [], 0, 0, 0, 9⟩ =
        (⟨[], [], 0, 0, 0, 9⟩, true) :=
  ⟨Or.inl (by decide),
    claim3_deserialize_atomic V32 3 [some 1, none] ⟨[], [], 0, 0, 0, 9⟩
      (Or.inl (by decide))⟩

/-- C4: `discard(n)` leaves the engine in exactly the state of calling
`operator()` `n` times and discarding the results; `discard(0)` changes
nothing. -/
theorem claim4_discard_equiv (V : Variant) (alpha : Nat) (n : Nat)
    (s : EngState) :
    discardE V alpha n s = nextNE V alpha n s ∧ discardE V alpha 0 s = s :=
  ⟨discardE_eq_nextNE V alpha n s, rfl⟩

/-- C5: an engine constructed with seed `s` equals a default-constructed
engine on which `seed(s)` was then called, before any draw; calling
`seed()` with no argument reproduces a freshly default-constructed
engine; the default seed is the word-width zero. -/
theorem claim5_seed_ctor_equiv (V : Variant) (alpha : Nat) (s : Nat)
    (st : EngState) (h3 : 3 ≤ alpha) (hlm : st.memory.length = 2 ^ alpha) :
    seedE V alpha s (mkEngineE V alpha defaultSeedE) = mkEngineE V alpha s ∧
      seedE V alpha defaultSeedE st = mkEngineE V alpha defaultSeedE ∧
      defaultSeedE = 0 := by
  have h8 := pow_div_eight alpha h3
  constructor
  · exact seedE_indep s h8 (mkEngineE_lengths V alpha defaultSeedE).2 (by simp)
  · constructor
    · exact seedE_indep defaultSeedE h8 hlm (by simp)
    · rfl

/-- Witness for C5 at the 32-bit variant with `Alpha = 3`. -/
theorem claim5_seed_ctor_equiv_witness :
    (3 ≤ 3 ∧ (mkEngineE V32 3 7).memory.length = 2 ^ 3) ∧
      seedE V32 3 5 (mkEngineE V32 3 defaultSeedE) = mkEngineE V32 3 5 := by
  refine ⟨⟨by omega, by decide⟩, ?_⟩
  exact (claim5_seed_ctor_equiv V32 3 5 (mkEngineE V32 3 7) (by omega) (by decide)).1

/-- C6: seeding from a non-empty range of `k < state_size` words fills
the buffer by cyclic re-reads, so the resulting engine state equals the
one produced by seeding from the same sequence repeated
`ceil(state_size/k)` times and truncated to `state_size` words. -/
theorem claim6_cyclic_seed (V : Variant) (alpha : Nat) (xs : List Nat)
    (st : EngState) (hne : xs ≠ []) (hlt : xs.length < 2 ^ alpha) :
    seedIterE V alpha xs st =
      seedIterE V alpha
        (List.take (2 ^ alpha)
          (List.flatten
            (List.replicate ((2 ^ alpha + xs.length - 1) / xs.length) xs))) st := by
  have hk : 0 < xs.length := List.length_pos.mpr hne
  have hdm := Nat.div_add_mod (2 ^ alpha + xs.length - 1) xs.length
  have hmod : (2 ^ alpha + xs.length - 1) % xs.length < xs.length :=
    Nat.mod_lt _ hk
  have hmk : 2 ^ alpha ≤
      ((2 ^ alpha + xs.length - 1) / xs.length) * xs.length := by
    have hcomm : xs.length * ((2 ^ alpha + xs.length - 1) / xs.length) =
        ((2 ^ alpha + xs.length - 1) / xs.length) * xs.length :=
      Nat.mul_comm _ _
    omega
  have hyslen : (List.take (2 ^ alpha)
      (List.flatten
        (List.replicate ((2 ^ alpha + xs.length - 1) / xs.length) xs))).length =
      2 ^ alpha := by
    rw [List.length_take, flatten_replicate_length]
    omega
  have hysget : ∀ j, j < 2 ^ alpha →
      (List.take (2 ^ alpha)
        (List.flatten
          (List.replicate ((2 ^ alpha + xs.length - 1) / xs.length) xs))).getD j 0 =
        xs.getD (j % xs.length) 0 := by
    intro j hj
    rw [List.getD_eq_getElem?_getD, List.getElem?_take, if_pos hj,
      ← List.getD_eq_getElem?_getD]
    exact flatten_replicate_getD xs _ j (by omega)
  have hysne : (List.take (2 ^ alpha)
      (List.flatten
        (List.replicate ((2 ^ alpha + xs.length - 1) / xs.length) xs))) ≠ [] := by
    intro hnil
    rw [hnil] at hyslen
    have := Nat.pos_pow_of_pos alpha (show 0 < 2 by omega)
    simp at hyslen
    omega
  have hfill : fillCyc V.W xs (2 ^ alpha) 0 =
      fillCyc V.W
        (List.take (2 ^ alpha)
          (List.flatten
            (List.replicate ((2 ^ alpha + xs.length - 1) / xs.length) xs)))
        (2 ^ alpha) 0 := by
    rw [fillCyc_eq_map V.W xs hne (2 ^ alpha) 0 (by omega),
      fillCyc_eq_map V.W _ hysne (2 ^ alpha) 0 (by omega)]
    apply List.map_congr_left
    intro j hj
    have hjlt : j < 2 ^ alpha := List.mem_range.mp hj
    simp only [Nat.zero_add, hyslen]
    rw [Nat.mod_eq_of_lt hjlt, hysget j hjlt]
  unfold seedIterE
  rw [hfill]

/-- Witness for C6: a three-word range cyclically seeding an
eight-slot engine. -/
theorem claim6_cyclic_seed_witness :
    (([1, 2, 3] : List Nat) ≠ [] ∧ ([1, 2, 3] : List Nat).length < 2 ^ 3) ∧
      seedIterE V32 3 [1, 2, 3] ⟨List.replicate 8 0, List.replicate 8 0, 0, 0, 0, 0⟩ =
        seedIterE V32 3
          (List.take (2 ^ 3)
            (List.flatten
              (List.replicate ((2 ^ 3 + ([1, 2, 3] : List Nat).length - 1) /
                ([1, 2, 3] : List Nat).length) [1, 2, 3])))
          ⟨List.replicate 8 0, List.replicate 8 0, 0, 0, 0, 0⟩ :=
  ⟨⟨by decide, by decide⟩,
    claim6_cyclic_seed V32 3 [1, 2, 3]
      ⟨List.replicate 8 0, List.replicate 8 0, 0, 0, 0, 0⟩ (by decide) (by decide)⟩

/-- C7: the serialized text is exactly `1 + 2*state_size + 3`
whitespace-separated numeric fields in the order `count`, output buffer,
memory array, `a`, `b`, `c`; a reader consumes fields in exactly that
order (any successful read decomposes the stream that way and commits
the fields in that order) and fails when a required field is absent,
non-numeric, or the stream ends early. -/
theorem claim7_serial_format (V : Variant) (alpha : Nat) (s : EngState)
    (hs : s.result.length = 2 ^ alpha ∧ s.memory.length = 2 ^ alpha) :
    (serializeE s).length = 1 + 2 * 2 ^ alpha + 3 ∧
      serializeE s =
        some s.count ::
          (s.result.map some ++ (s.memory.map some ++ [some s.a, some s.b, some s.c])) ∧
      (∀ (ts : List (Option Nat)) (x y : EngState),
        deserializeE V alpha ts x = (y, false) →
        ∃ (cnt av bv cv : Nat) (res mem : List Nat) (rest : List (Option Nat)),
          ts = some cnt ::
              (res.map some ++ mem.map some ++ [some av, some bv, some cv] ++ rest) ∧
            res.length = 2 ^ alpha ∧ mem.length = 2 ^ alpha ∧
            y = ⟨res, mem, av, bv, cv, cnt⟩) ∧
      (∀ (ts : List (Option Nat)) (x : EngState),
        (ts.length < 2 * 2 ^ alpha + 4 ∨
          ∃ i, i < 2 * 2 ^ alpha + 4 ∧ ts[i]? = some none) →
        (deserializeE V alpha ts x).2 = true) := by
  refine ⟨?_, rfl, fun ts x y h => deserializeE_success h,
    fun ts x h => deserializeE_fails_of_bad h⟩
  simp [serializeE, hs.1, hs.2]
  ring

/-- Witness for C7: field count of the serialization of a concrete
engine. -/
theorem claim7_serial_format_witness :
    ((mkEngineE V32 3 0).result.length = 2 ^ 3 ∧
      (mkEngineE V32 3 0).memory.length = 2 ^ 3) ∧
      (serializeE (mkEngineE V32 3 0)).length = 1 + 2 * 2 ^ 3 + 3 :=
  ⟨by decide, (claim7_serial_format V32 3 (mkEngineE V32 3 0) (by decide)).1⟩

/-- C8: after a single `operator()` call the engine is no longer equal,
under the component-wise `operator==`, to a copy of its pre-call state:
the cursor always changes (to `count - 1`, or from `0` to
`state_size - 1` after the regeneration that also bumps `c`). -/
theorem claim8_next_changes (V : Variant) (alpha : Nat) (s : EngState)
    (h1 : 1 ≤ alpha) :
    beqE (2 ^ alpha) (nextE V alpha s).2 s = false := by
  have hss : 2 ≤ 2 ^ alpha := by
    calc (2 : Nat) = 2 ^ 1 := rfl
    _ ≤ 2 ^ alpha := Nat.pow_le_pow_right (by omega) h1
  by_cases h0 : s.count = 0
  · rw [nextE_zero h0]
    refine beqE_false_of_count _ ?_
    simp [h0]
    omega
  · rw [nextE_pos h0]
    refine beqE_false_of_count _ ?_
    simp
    omega

/-- Witness for C8: a freshly seeded engine differs from its pre-call
copy after one draw. -/
theorem claim8_next_changes_witness :
    (1 ≤ 3) ∧ beqE (2 ^ 3) (nextE V32 3 (mkEngineE V32 3 0)).2 (mkEngineE V32 3 0) = false :=
  ⟨by omega, claim8_next_changes V32 3 (mkEngineE V32 3 0) (by omega)⟩

/-- C9: `0 ≤ count ≤ state_size` holds after every seeding operation
(each establishes `count = state_size`) and is preserved by `next`,
`discard` and copying; a draw that finds `count == 0` performs the full
regeneration `do_isaac` before returning a word (the returned word and
the committed state both come from the regenerated buffer). -/
theorem claim9_count_invariant (V : Variant) (alpha : Nat) :
    (∀ (s : Nat) (st : EngState), (seedE V alpha s st).count = 2 ^ alpha) ∧
      (∀ (xs : List Nat) (st : EngState),
        (seedIterE V alpha xs st).count = 2 ^ alpha) ∧
      (∀ (xs : List Nat) (st : EngState),
        (seedArrE V alpha xs st).count = 2 ^ alpha) ∧
      (∀ s : EngState, s.count ≤ 2 ^ alpha →
        (nextE V alpha s).2.count ≤ 2 ^ alpha) ∧
      (∀ (z : Nat) (s : EngState), s.count ≤ 2 ^ alpha →
        (discardE V alpha z s).count ≤ 2 ^ alpha) ∧
      (∀ s : EngState, copyE s = s) ∧
      (∀ s : EngState, s.count = 0 →
        (nextE V alpha s).2 = { doIsaacG V alpha s with count := 2 ^ alpha - 1 } ∧
          (nextE V alpha s).1 = (doIsaacG V alpha s).result.getD (2 ^ alpha - 1) 0) := by
  have hnext : ∀ s : EngState, s.count ≤ 2 ^ alpha →
      (nextE V alpha s).2.count ≤ 2 ^ alpha := by
    intro s hc
    by_cases h0 : s.count = 0
    · rw [nextE_zero h0]
      exact Nat.sub_le _ _
    · rw [nextE_pos h0]
      exact Nat.le_trans (Nat.sub_le _ _) hc
  refine ⟨fun s st => initE_count V alpha _, fun xs st => initE_count V alpha _,
    fun xs st => initE_count V alpha _, hnext, ?_, fun s => rfl, ?_⟩
  · intro z
    induction z with
    | zero => intro s h; exact h
    | succ z ih =>
      intro s h
      exact ih _ (hnext s h)
  · intro s h0
    rw [nextE_zero h0]
    exact ⟨rfl, rfl⟩

/-- Witness for C9: cursor facts evaluated on a concrete engine. -/
theorem claim9_count_invariant_witness :
    ((mkEngineE V32 3 0).count ≤ 2 ^ 3 ∧
      (nextE V32 3 (mkEngineE V32 3 0)).2.count ≤ 2 ^ 3) ∧
      ((⟨List.replicate 8 1, List.replicate 8 2, 3, 4, 5, 0⟩ : EngState).count = 0 ∧
        (nextE V32 3 ⟨List.replicate 8 1, List.replicate 8 2, 3, 4, 5, 0⟩).2 =
          { doIsaacG V32 3 ⟨List.replicate 8 1, List.replicate 8 2, 3, 4, 5, 0⟩ with
              count := 2 ^ 3 - 1 }) :=
  ⟨⟨by decide, (claim9_count_invariant V32 3).2.2.2.1 (mkEngineE V32 3 0) (by decide)⟩,
    ⟨rfl, ((claim9_count_invariant V32 3).2.2.2.2.2.2 _ rfl).1⟩⟩

/-- C10: with `count > 0`, a draw modifies only the cursor: the output
buffer, the memory array and the registers `a`, `b`, `c` are left
exactly unchanged, and `count` becomes `count - 1`. -/
theorem claim10_next_frame (V : Variant) (alpha : Nat) (s : EngState)
    (h : 0 < s.count) :
    (nextE V alpha s).2.result = s.result ∧
      (nextE V alpha s).2.memory = s.memory ∧
      (nextE V alpha s).2.a = s.a ∧
      (nextE V alpha s).2.b = s.b ∧
      (nextE V alpha s).2.c = s.c ∧
      (nextE V alpha s).2.count = s.count - 1 := by
  rw [nextE_pos (by omega)]
  exact ⟨rfl, rfl, rfl, rfl, rfl, rfl⟩

/-- Witness for C10: the frame property at a freshly seeded engine. -/
theorem claim10_next_frame_witness :
    0 < (mkEngineE V32 3 0).count ∧
      (nextE V32 3 (mkEngineE V32 3 0)).2.memory = (mkEngineE V32 3 0).memory :=
  ⟨by decide, (claim10_next_frame V32 3 (mkEngineE V32 3 0) (by decide)).2.1⟩

end IsaacEng
